import Mathlib

/-!
# Verification of the argus revision-tracking / range-comparison subsystem

Shallow embedding of the code in `src/lib/git.ts` and `src/routes/pr.ts`
(plus the SQL schema in the migrations): the token sanitizer, the git
process runner, the shallow-fetch retry, the revision ledger
(`saveRevision` / `backfillRevisions`), and the range-diff orchestration
handler, together with theorems checking the specification's claims.

JavaScript-specific behaviour is modelled explicitly:
* `null`/`undefined` values are `Option`s; JS truthiness on strings
  (`""` is falsy) is `jsTruthy`;
* `String.prototype.replace(new RegExp(token, 'g'), repl)` is modelled by
  a small regex interpreter over a subset of JS regex syntax (literal
  characters, `.`, postfix `+`); patterns outside the subset make the
  parser return `none` (JS would throw a `SyntaxError` for some of them,
  e.g. an unmatched `(` or a leading `+`);
* asynchronous process events are modelled by explicit event traces.
-/

namespace Argus

/-- JS truthiness of a nullable string: `null`/`undefined` and `""` are falsy. -/
def jsTruthy : Option String → Bool
  | none => false
  | some s => !s.isEmpty

/-! ## Regex model for `sanitizeError` (src/lib/git.ts lines 38-42)

The code is
```
export function sanitizeError(message: string, token: string): string {
  if (!token) return message;
  return message.replace(new RegExp(token, 'g'), '***TOKEN***');
}
```
The token is interpolated into the regex UNESCAPED, so the pattern is the
token read as regex syntax, not the literal token. -/

/-- A regex atom base: a literal character or `.` (any char except line
terminators, per JS regex semantics). -/
inductive RegexBase where
  | lit (c : Char)
  | dot
deriving DecidableEq, Repr

/-- A regex atom: a base, or a base under a greedy postfix `+`. -/
inductive RegexAtom where
  | once (b : RegexBase)
  | plus (b : RegexBase)
deriving DecidableEq, Repr

/-- Characters the model does not interpret. Several of them (e.g. `(`)
make `new RegExp` throw; the rest have regex semantics outside the
modelled subset. -/
def regexMeta (c : Char) : Bool :=
  c ∈ ['(', ')', '[', ']', '^', '$', '|', '\\', '*', '?', '+', '\x7b', '\x7d']

/-- The base an ordinary pattern character denotes. -/
def charBase (c : Char) : RegexBase :=
  if c = '.' then RegexBase.dot else RegexBase.lit c

/-- Parse a JS regex pattern drawn from the modelled subset: a sequence of
atoms, each a literal character or `.`, optionally followed by `+`.
Returns `none` outside the subset (e.g. a leading `+`, for which JS throws
"nothing to repeat"). -/
def parsePattern : List Char → Option (List RegexAtom)
  | [] => some []
  | c :: '+' :: rest2 =>
    if regexMeta c then none
    else (parsePattern rest2).map (fun as => RegexAtom.plus (charBase c) :: as)
  | c :: rest =>
    if regexMeta c then none
    else (parsePattern rest).map (fun as => RegexAtom.once (charBase c) :: as)

/-- Does a base match one character? JS `.` does not match line terminators. -/
def matchBase : RegexBase → Char → Bool
  | .lit c, x => x = c
  | .dot, x => x ≠ '\n' ∧ x ≠ '\r'

/-- Greedy backtracking matcher: length of the (leftmost-greedy) match of
the atom sequence at the start of `s`, if any. Fuel-structured; every
recursive call shrinks `as.length + s.length`, so fuel
`as.length + s.length + 1` always suffices. -/
def reMatch (fuel : Nat) (as : List RegexAtom) (s : List Char) : Option Nat :=
  match fuel with
  | 0 => none
  | fuel + 1 =>
    match as with
    | [] => some 0
    | .once b :: as2 =>
      match s with
      | [] => none
      | c :: s2 => if matchBase b c then (reMatch fuel as2 s2).map (· + 1) else none
    | .plus b :: as2 =>
      match s with
      | [] => none
      | c :: s2 =>
        if matchBase b c then
          match reMatch fuel (RegexAtom.plus b :: as2) s2 with
          | some n => some (n + 1)
          | none => (reMatch fuel as2 s2).map (· + 1)
        else none

/-- Global regex replacement, as JS `String.replace` with the `g` flag:
scan left to right; at each position emit the replacement for the
leftmost-greedy match and skip the matched text (an empty match emits the
replacement and advances one character), otherwise keep the character. -/
def replaceAllAux (fuel : Nat) (as : List RegexAtom) (repl : List Char) (s : List Char) :
    List Char :=
  match fuel with
  | 0 => s
  | fuel + 1 =>
    match reMatch (as.length + s.length + 1) as s with
    | some 0 =>
      match s with
      | [] => repl
      | c :: s2 => repl ++ c :: replaceAllAux fuel as repl s2
    | some (n + 1) => repl ++ replaceAllAux fuel as repl (s.drop (n + 1))
    | none =>
      match s with
      | [] => []
      | c :: s2 => c :: replaceAllAux fuel as repl s2

def regexReplaceAll (as : List RegexAtom) (repl s : List Char) : List Char :=
  replaceAllAux (s.length + 1) as repl s

/-- `sanitizeError` from src/lib/git.ts: empty token returns the message
unchanged; otherwise the message is passed through
`replace(new RegExp(token, 'g'), '***TOKEN***')`. `none` models the
pattern falling outside the modelled regex subset (for several such
tokens JS throws a `SyntaxError`). -/
def sanitizeError (message token : String) : Option String :=
  if token.isEmpty then some message
  else
    match parsePattern token.toList with
    | none => none
    | some as => some (String.mk (regexReplaceAll as "***TOKEN***".toList message.toList))

/-- Literal substring replacement of every occurrence of `tok` (non-empty)
in `s` by `repl`. Fuel-structured; fuel `s.length + 1` suffices. -/
def literalReplaceAux (fuel : Nat) (tok repl s : List Char) : List Char :=
  match fuel with
  | 0 => s
  | fuel + 1 =>
    match s with
    | [] => []
    | c :: s2 =>
      if tok.isPrefixOf s then repl ++ literalReplaceAux fuel tok repl (s.drop tok.length)
      else c :: literalReplaceAux fuel tok repl s2

/-- The specification's description of `sanitizeError`: every occurrence
of the LITERAL token substring is replaced by the fixed placeholder,
regardless of regex metacharacters in the token. -/
def sanitizeErrorSpec (message token : String) : String :=
  if token.isEmpty then message
  else String.mk (literalReplaceAux (message.toList.length + 1) token.toList
    "***TOKEN***".toList message.toList)

/-! ## Configuration (src/config.ts, `config.git`) -/

namespace Config

def fetchDepth : Nat := 200
def fetchDeepDepth : Nat := 500
def commandTimeout : Nat := 60000

end Config

/-! ## fetchRefs shallow retry (src/lib/git.ts lines 141-172) -/

/-- JS `String.prototype.toLowerCase`, modelled characterwise. -/
def strToLower (s : String) : String :=
  String.mk (s.toList.map Char.toLower)

/-- Is `sub` a contiguous sublist of `s`? -/
def listContains (sub s : List Char) : Bool :=
  match s with
  | [] => sub.isEmpty
  | _ :: t => sub.isPrefixOf s || listContains sub t

/-- JS `String.prototype.includes`: substring containment. -/
def strIncludes (s sub : String) : Bool :=
  listContains sub.toList s.toList

/-- The shallow-failure test from fetchRefs:
`errorMsg.includes('shallow') || errorMsg.includes('unshallow')` over the
lowercased message. -/
def isShallowError (msg : String) : Bool :=
  strIncludes (strToLower msg) "shallow" || strIncludes (strToLower msg) "unshallow"

/-- The depth of the first fetch: JS `depth || config.git.fetchDepth`
(`0` is falsy, so it also falls back to the default). -/
def fetchFirstDepth (depth : Option Nat) : Nat :=
  match depth with
  | some d => if d = 0 then Config.fetchDepth else d
  | none => Config.fetchDepth

/-- One underlying `git fetch` invocation through the process runner. -/
structure FetchCall where
  depth : Nat
  refs : List String
deriving DecidableEq, Repr

/-- The error fetchRefs surfaces. The payload is the sanitized message of
the underlying failure (`Option` because `sanitizeError` is modelled over
a regex subset). -/
inductive FetchError where
  /-- "Failed to fetch refs (even with deep fetch): ..." -/
  | afterDeepRetry (sanitized : Option String)
  /-- "Failed to fetch refs: ..." -/
  | plain (sanitized : Option String)
deriving DecidableEq, Repr

/-- `fetchRefs` from src/lib/git.ts, with the two potential underlying
`execGit` calls supplied as oracles (`first` for the fetch at
`fetchFirstDepth depth`, `second` for the retry at
`config.git.fetchDeepDepth`; an `Except.error` carries the thrown error's
message). Returns the surfaced result together with the list of
underlying tool invocations actually performed, in order. -/
def fetchRefs (refs : List String) (token : String) (depth : Option Nat)
    (first second : Except String Unit) : Except FetchError Unit × List FetchCall :=
  let firstCall : FetchCall := ⟨fetchFirstDepth depth, refs⟩
  let deepCall : FetchCall := ⟨Config.fetchDeepDepth, refs⟩
  match first with
  | .ok _ => (.ok (), [firstCall])
  | .error e =>
    if isShallowError e then
      match second with
      | .ok _ => (.ok (), [firstCall, deepCall])
      | .error e2 => (.error (.afterDeepRetry (sanitizeError e2 token)), [firstCall, deepCall])
    else
      (.error (.plain (sanitizeError e token)), [firstCall])

/-! ## execGit process runner (src/lib/git.ts lines 47-112, 343-357)

`execGit` wraps a spawned `git` subprocess in a Promise. Its behaviour is
driven by the events delivered to its handlers (`stdout`/`stderr` data,
the timeout timer firing, the process `close` event, the spawn `error`
event). We model the handler state explicitly and the run of one
invocation as a fold of the handler step function over an event trace. -/

/-- The TS `GitCommandResult` interface. -/
structure GitCommandResult where
  stdout : String
  stderr : String
  exitCode : Int
deriving DecidableEq, Repr

/-- The errors `execGit` rejects with. Payloads are the sanitized texts
(`Option` because `sanitizeError` is modelled over a regex subset). -/
inductive GitError where
  /-- "Git command timed out after {timeout}ms" -/
  | timeoutErr (timeoutMs : Nat)
  /-- "Git command failed (exit {code}): {sanitized stderr}" -/
  | exitErr (code : Option Int) (sanitizedStderr : Option String)
  /-- "Git command error: {sanitized message}" -/
  | launchErr (sanitizedMsg : Option String)
deriving DecidableEq, Repr

/-- `token ? sanitizeError(msg, token) : msg` — the sanitization applied
at each rejection site of execGit (`token` is the optional parameter). -/
def sanitizeApplied (token : Option String) (msg : String) : Option String :=
  match token with
  | some t => if t.isEmpty then some msg else sanitizeError msg t
  | none => some msg

/-- The state of one `execGit` invocation: accumulated output, the
`timedOut` flag, whether the timeout timer is still pending, whether the
subprocess is still in the module-level `activeProcesses` set, whether
`proc.kill()` was called, and the Promise settlement (a Promise settles
at most once; later resolves/rejects are no-ops). -/
structure ExecState where
  stdoutAcc : String
  stderrAcc : String
  timedOut : Bool
  timerActive : Bool
  inSet : Bool
  killed : Bool
  settled : Option (Except GitError GitCommandResult)
deriving Repr

/-- Events that can reach the handlers of one invocation. -/
inductive ExecEvent where
  | outData (d : String)
  | errData (d : String)
  | timerFire
  | close (code : Option Int)
  | errEvt (msg : String)
deriving DecidableEq, Repr

/-- State right after `spawn` + `activeProcesses.add(proc)` + `setTimeout`. -/
def initExecState : ExecState :=
  { stdoutAcc := "", stderrAcc := "", timedOut := false, timerActive := true,
    inSet := true, killed := false, settled := none }

/-- Settle the Promise (no-op if already settled). -/
def promiseSettle (s : ExecState) (r : Except GitError GitCommandResult) : ExecState :=
  match s.settled with
  | some _ => s
  | none => { s with settled := some r }

/-- One handler activation, following the code of execGit. `cleanup()`
clears the timer and removes the process from `activeProcesses`. A timer
that has been cleared never fires, so `timerFire` is a no-op when the
timer is inactive. -/
def execStep (token : Option String) (timeoutMs : Nat) (s : ExecState) :
    ExecEvent → ExecState
  | .outData d => { s with stdoutAcc := s.stdoutAcc ++ d }
  | .errData d => { s with stderrAcc := s.stderrAcc ++ d }
  | .timerFire =>
    if s.timerActive then
      -- cleanup(); timedOut = true; proc.kill(); reject(TimeoutError)
      promiseSettle
        { s with timerActive := false, inSet := false, timedOut := true, killed := true }
        (.error (.timeoutErr timeoutMs))
    else s
  | .close code =>
    -- cleanup(); if (timedOut) return; then resolve or reject on the exit code
    let s2 := { s with timerActive := false, inSet := false }
    if s2.timedOut then s2
    else if code = some 0 then
      promiseSettle s2 (.ok ⟨s2.stdoutAcc, s2.stderrAcc, 0⟩)
    else
      promiseSettle s2 (.error (.exitErr code (sanitizeApplied token s2.stderrAcc)))
  | .errEvt msg =>
    -- cleanup(); if (timedOut) return; reject(LaunchError)
    let s2 := { s with timerActive := false, inSet := false }
    if s2.timedOut then s2
    else promiseSettle s2 (.error (.launchErr (sanitizeApplied token msg)))

/-- One `execGit` invocation: fold the handler step over the event trace. -/
def execRun (token : Option String) (timeoutMs : Nat) (events : List ExecEvent) : ExecState :=
  events.foldl (execStep token timeoutMs) initExecState

/-- The possible fates of the spawned subprocess, and the event trace the
Node runtime delivers for each: a spawn failure emits `error`; a process
that exits within the timeout delivers its output then `close`; a process
still running when the timer expires is killed (the timer fires, then the
killed process closes). -/
inductive ProcFate where
  | spawnFailure (msg : String)
  | exits (code : Option Int) (outChunks errChunks : List String) (withinTimeout : Bool)
deriving DecidableEq, Repr

def fateTrace : ProcFate → List ExecEvent
  | .spawnFailure msg => [.errEvt msg]
  | .exits code os es true =>
    os.map ExecEvent.outData ++ es.map ExecEvent.errData ++ [.close code]
  | .exits code os es false =>
    os.map ExecEvent.outData ++ es.map ExecEvent.errData ++ [.timerFire, .close code]

def concatChunks (l : List String) : String :=
  l.foldl (fun a b => a ++ b) ""

/-- `cleanupGitProcesses` (src/lib/git.ts lines 343-357): SIGTERM every
tracked process, then clear the set. Returns (the terminated processes,
the registry afterwards). -/
def cleanupGitProcesses (reg : List ExecState) : List ExecState × List ExecState :=
  (reg.map (fun p => { p with killed := true }), [])

/-! ## Persistent state: pr_revisions and user_preferences

From the migrations: `pr_revisions` has
`UNIQUE(owner, repo, pr_number, head_sha)` and nullable `merge_base_sha`;
`user_preferences` has `PRIMARY KEY (user_id, preference_key)`. -/

/-- A row of `pr_revisions`. -/
structure RevisionRow where
  id : Nat
  owner : String
  repo : String
  prNumber : Nat
  headSha : String
  headRef : String
  baseSha : String
  baseRef : String
  mergeBaseSha : Option String
  seenAt : String
deriving DecidableEq, Repr

/-- A row of `user_preferences`. -/
structure PreferenceRow where
  userId : Nat
  preferenceKey : String
  preferenceValue : String
deriving DecidableEq, Repr

/-- The persisted state the subsystem touches. -/
structure Db where
  revisions : List RevisionRow
  preferences : List PreferenceRow
deriving DecidableEq, Repr

/-- The revision uniqueness key `(owner, repo, pr_number, head_sha)`. -/
def matchesKey (r : RevisionRow) (owner repo : String) (prNumber : Nat) (headSha : String) :
    Bool :=
  r.owner == owner && r.repo == repo && r.prNumber == prNumber && r.headSha == headSha

/-- `SELECT ... FROM pr_revisions WHERE id = ?` (first row). -/
def findRevision (db : Db) (id : Nat) : Option RevisionRow :=
  db.revisions.find? (fun r => r.id == id)

/-- `SELECT preference_value FROM user_preferences WHERE user_id = ? AND
preference_key = ?` (first row). -/
def getPreference (db : Db) (userId : Nat) (key : String) : Option String :=
  (db.preferences.find? (fun p => p.userId == userId && p.preferenceKey == key)).map
    (fun p => p.preferenceValue)

/-- The id SQLite's AUTOINCREMENT would assign to the next inserted row. -/
def nextRevisionId (db : Db) : Nat :=
  db.revisions.foldl (fun m r => max m r.id) 0 + 1

/-- `INSERT OR IGNORE INTO pr_revisions ...`: insert-if-absent on the
uniqueness key; never overwrites an existing row. -/
def insertRevision (db : Db) (r : RevisionRow) : Db :=
  if db.revisions.any (fun x => matchesKey x r.owner r.repo r.prNumber r.headSha) then db
  else { db with revisions := db.revisions ++ [r] }

/-- `saveRevision` (src/routes/pr.ts lines 1072-1106), success path of the
insert: builds the row with `merge_base_sha = null` (computed lazily) and
`seen_at` either the supplied historical timestamp or the insert-time
default, and inserts-or-ignores it. -/
def saveRevision (db : Db) (owner repo : String) (prNumber : Nat)
    (headSha headRef baseSha baseRef : String) (seenAt : Option String) (now : String) : Db :=
  let row : RevisionRow :=
    { id := nextRevisionId db, owner := owner, repo := repo, prNumber := prNumber,
      headSha := headSha, headRef := headRef, baseSha := baseSha, baseRef := baseRef,
      mergeBaseSha := none, seenAt := seenAt.getD now }
  insertRevision db row

/-! ## backfillRevisions (src/routes/pr.ts lines 1108-1169) -/

/-- One timeline event as consumed by backfillRevisions. -/
structure TimelineEvent where
  event : String
  createdAt : String
  commitId : Option String
deriving DecidableEq, Repr

/-- The `(sha, timestamp)` pairs of force-push events:
`event.event === 'head_ref_force_pushed' && event.commit_id` (JS
truthiness on `commit_id`). -/
def forcePushShas (timeline : List TimelineEvent) : List (String × String) :=
  timeline.filterMap (fun e =>
    if e.event == "head_ref_force_pushed" && jsTruthy e.commitId then
      some (e.commitId.getD "", e.createdAt)
    else none)

/-- Comparator of the backfill sort:
`revisions.sort((a, b) => a.timestamp.localeCompare(b.timestamp))`. -/
def tsLe (a b : String × String) : Prop := a.2 ≤ b.2

instance : DecidableRel tsLe := fun a b => (inferInstance : Decidable (a.2 ≤ b.2))

instance : IsTotal (String × String) tsLe := ⟨fun a b => le_total a.2 b.2⟩

instance : IsTrans (String × String) tsLe := ⟨fun _ _ _ h1 h2 => le_trans h1 h2⟩

/-- The ordered `(sha, timestamp)` list backfillRevisions builds: the
force-push shas, plus the current head (timestamped `now`) if absent,
sorted by timestamp ascending (JS `Array.prototype.sort` is stable;
insertion sort models it). -/
def collectRevisions (timeline : List TimelineEvent) (currentHeadSha now : String) :
    List (String × String) :=
  let revisions := forcePushShas timeline
  let revisions :=
    if revisions.any (fun r => r.1 == currentHeadSha) then revisions
    else revisions ++ [(currentHeadSha, now)]
  List.insertionSort tsLe revisions

/-- The save loop of backfillRevisions (success path): each collected
revision is saved with its historical timestamp, in list order. -/
def backfillSaveAll (db : Db) (owner repo : String) (prNumber : Nat)
    (headRef baseSha baseRef : String) (revs : List (String × String)) : Db :=
  revs.foldl
    (fun d r => saveRevision d owner repo prNumber r.1 headRef baseSha baseRef (some r.2) "")
    db

/-- `backfillRevisions`, success path of the timeline fetch: collect,
sort, save each. -/
def backfillRevisions (db : Db) (owner repo : String) (prNumber : Nat)
    (baseRef baseSha headRef currentHeadSha : String) (timeline : List TimelineEvent)
    (now : String) : Db :=
  backfillSaveAll db owner repo prNumber headRef baseSha baseRef
    (collectRevisions timeline currentHeadSha now)

/-- `saveRevision` with the outcome of the `INSERT` supplied as an oracle:
a throwing insert is caught inside saveRevision ("Ignore errors -
revision tracking is optional") and leaves the ledger unchanged. -/
def saveRevisionF (insertRes : Except String Unit) (db : Db) (owner repo : String)
    (prNumber : Nat) (headSha headRef baseSha baseRef : String) (seenAt : Option String)
    (now : String) : Db :=
  match insertRes with
  | .ok _ => saveRevision db owner repo prNumber headSha headRef baseSha baseRef seenAt now
  | .error _ => db

/-- The body of backfillRevisions' `try` block, with the timeline fetch
and each insert's outcome supplied as oracles (`insertResults i` is the
outcome of the i-th insert). Only the timeline fetch can throw out of the
body; saves swallow their own failures. -/
def backfillTry (timelineRes : Except String (List TimelineEvent))
    (insertResults : Nat → Except String Unit) (db : Db) (owner repo : String)
    (prNumber : Nat) (baseRef baseSha headRef currentHeadSha : String) (now : String) :
    Except String Db := do
  let timeline ← timelineRes
  let revs := collectRevisions timeline currentHeadSha now
  pure ((revs.enum.foldl
    (fun d ri =>
      saveRevisionF (insertResults ri.1) d owner repo prNumber ri.2.1 headRef baseSha baseRef
        (some ri.2.2) "")
    db))

/-- `backfillRevisions` as the route sees it: the whole body is wrapped in
`try/catch`; any error is logged and swallowed ("Continue - backfill is
optional"), leaving whatever ledger state the body had reached (at the
only throwing point, the timeline fetch, nothing has been written yet). -/
def backfillRevisionsF (timelineRes : Except String (List TimelineEvent))
    (insertResults : Nat → Except String Unit) (db : Db) (owner repo : String)
    (prNumber : Nat) (baseRef baseSha headRef currentHeadSha : String) (now : String) : Db :=
  match backfillTry timelineRes insertResults db owner repo prNumber baseRef baseSha headRef
      currentHeadSha now with
  | .ok d => d
  | .error _ => db

/-! ## The range-diff request handler (src/routes/pr.ts lines 699-852)

`GET /pr/:owner/:repo/:number/range-diff/:fromId/:toId`: load both
revisions, decide the confirmation gate, lazily compute and persist
missing merge bases, compute the range diff. The external git
computations are supplied as oracles (`computeMergeBase` keyed by the
`(base_sha, head_sha)` it is invoked with); the returned invocation list
records every external-tool call the handler performs, in order. -/

/-- The result shape of `computeRangeDiff` (TS `RangeDiffResult`). -/
structure RangeDiffResult where
  output : String
  hasChanges : Bool
deriving DecidableEq, Repr

/-- The handler's possible responses. -/
inductive CompareOutcome where
  /-- 404 "Revision not found" -/
  | notFound
  /-- the `range-diff-confirm` view -/
  | confirmationRequired
  /-- the `range-diff` view -/
  | comparison (output : String) (hasChanges : Bool)
  /-- the `error` view rendered by the handler's catch block -/
  | errorPage (msg : String)
deriving DecidableEq, Repr

/-- An external-tool call performed by the handler. `mergeBase` is tagged
with the id of the revision whose branch performed it. -/
inductive GitInvocation where
  | mergeBase (revId : Nat) (baseSha headSha : String)
  | rangeDiff (oldBase oldHead newBase newHead : String)
deriving DecidableEq, Repr

/-- `UPDATE pr_revisions SET merge_base_sha = ? WHERE id = ?`. -/
def updateMergeBase (db : Db) (id : Nat) (mb : String) : Db :=
  { db with
    revisions := db.revisions.map
      (fun r => if r.id == id then { r with mergeBaseSha := some mb } else r) }

/-- The skip-confirmation preference:
`range_diff_skip_confirm:{owner}/{repo}`, skipping iff a row exists with
value `'1'`. -/
def skipConfirmPref (db : Db) (userId : Nat) (owner repo : String) : Bool :=
  match getPreference db userId ("range_diff_skip_confirm:" ++ owner ++ "/" ++ repo) with
  | some v => v == "1"
  | none => false

/-- Final stage: one `computeRangeDiff` call over the resolved merge
bases and heads. -/
def rangeDiffStage (db : Db) (invs : List GitInvocation) (fromMb : String)
    (fromRev : RevisionRow) (toMb : String) (toRev : RevisionRow)
    (rdOracle : Except String RangeDiffResult) : CompareOutcome × Db × List GitInvocation :=
  let inv := GitInvocation.rangeDiff fromMb fromRev.headSha toMb toRev.headSha
  match rdOracle with
  | .ok rd => (.comparison rd.output rd.hasChanges, db, invs ++ [inv])
  | .error e => (.errorPage e, db, invs ++ [inv])

/-- Second branch: compute and persist `toRev`'s merge base if missing
(JS `if (!toMergeBase)`: both null and `''` are falsy). -/
def toStage (db : Db) (invs : List GitInvocation) (fromMb : String)
    (fromRev toRev : RevisionRow) (toId : Nat)
    (mbOracle : String → String → Except String String)
    (rdOracle : Except String RangeDiffResult) : CompareOutcome × Db × List GitInvocation :=
  if jsTruthy toRev.mergeBaseSha then
    rangeDiffStage db invs fromMb fromRev (toRev.mergeBaseSha.getD "") toRev rdOracle
  else
    let inv := GitInvocation.mergeBase toId toRev.baseSha toRev.headSha
    match mbOracle toRev.baseSha toRev.headSha with
    | .error e => (.errorPage e, db, invs ++ [inv])
    | .ok mb => rangeDiffStage (updateMergeBase db toId mb) (invs ++ [inv]) fromMb fromRev mb
        toRev rdOracle

/-- First branch: compute and persist `fromRev`'s merge base if missing. -/
def fromStage (db : Db) (fromRev toRev : RevisionRow) (fromId toId : Nat)
    (mbOracle : String → String → Except String String)
    (rdOracle : Except String RangeDiffResult) : CompareOutcome × Db × List GitInvocation :=
  if jsTruthy fromRev.mergeBaseSha then
    toStage db [] (fromRev.mergeBaseSha.getD "") fromRev toRev toId mbOracle rdOracle
  else
    let inv := GitInvocation.mergeBase fromId fromRev.baseSha fromRev.headSha
    match mbOracle fromRev.baseSha fromRev.headSha with
    | .error e => (.errorPage e, db, [inv])
    | .ok mb => toStage (updateMergeBase db fromId mb) [inv] mb fromRev toRev toId mbOracle
        rdOracle

/-- The range-diff handler: load both revisions (404 if either is
absent); if either lacks a merge base (`!fromRev.merge_base_sha ||
!toRev.merge_base_sha`) and the user has not set the skip preference,
return the confirmation page; otherwise run the compute stages. Returns
(response, persisted state afterwards, external-tool invocations). -/
def compareRevisions (db : Db) (owner repo : String) (userId : Nat) (fromId toId : Nat)
    (mbOracle : String → String → Except String String)
    (rdOracle : Except String RangeDiffResult) : CompareOutcome × Db × List GitInvocation :=
  match findRevision db fromId, findRevision db toId with
  | none, _ => (.notFound, db, [])
  | some _, none => (.notFound, db, [])
  | some fromRev, some toRev =>
    let needsCompute := !jsTruthy fromRev.mergeBaseSha || !jsTruthy toRev.mergeBaseSha
    let skipConfirm := skipConfirmPref db userId owner repo
    if needsCompute && !skipConfirm then (.confirmationRequired, db, [])
    else fromStage db fromRev toRev fromId toId mbOracle rdOracle

/-! ## Concrete sample data used by witnesses -/

def sampleRev1 : RevisionRow :=
  { id := 1, owner := "o", repo := "r", prNumber := 5, headSha := "h1", headRef := "hr",
    baseSha := "b1", baseRef := "br", mergeBaseSha := none, seenAt := "t1" }

def sampleRev2 : RevisionRow :=
  { id := 2, owner := "o", repo := "r", prNumber := 5, headSha := "h2", headRef := "hr",
    baseSha := "b2", baseRef := "br", mergeBaseSha := some "m2", seenAt := "t2" }

def sampleDb : Db := ⟨[sampleRev1, sampleRev2], []⟩

def sampleMbOracle : String → String → Except String String := fun _ _ => .ok "m"

def sampleRdOracle : Except String RangeDiffResult := .ok ⟨"out", true⟩

end Argus

namespace Argus

/-- C1: the claim says `sanitizeError(message, token)` replaces every
occurrence of the LITERAL token substring with `'***TOKEN***'`, including
when the token contains regex metacharacters. The code builds
`new RegExp(token, 'g')` from the unescaped token, so for
`message = token = "a+b"` the pattern `/a+b/g` (one or more `a`
followed by `b`) matches nothing in the text `"a+b"` and the secret token
is returned UNSANITIZED, while the claimed literal replacement would
yield `"***TOKEN***"`. This contradicts the function's own documentation
("Sanitize error messages to remove tokens"). -/
theorem sanitizeError_unescaped_token_bug :
    sanitizeError "a+b" "a+b" = some "a+b" ∧
    sanitizeErrorSpec "a+b" "a+b" = "***TOKEN***" ∧
    ("a+b" : String) ≠ "***TOKEN***" := by
  refine ⟨by decide, by decide, by decide⟩

/-- C7: a first fetch failure whose message is shallow-related triggers
exactly one retry at the fixed deeper depth `config.git.fetchDeepDepth`;
a shallow-then-success run performs exactly 2 underlying invocations and
succeeds; if the retry also fails, a FetchError is surfaced after the 2
invocations; a non-shallow first failure triggers no retry (1 invocation,
error surfaced). -/
theorem fetchRefs_shallow_retry_policy (refs : List String) (token : String)
    (depth : Option Nat) (e e2 : String) :
    (isShallowError e = true →
      fetchRefs refs token depth (.error e) (.ok ()) =
        (.ok (), [⟨fetchFirstDepth depth, refs⟩, ⟨Config.fetchDeepDepth, refs⟩])) ∧
    (isShallowError e = true →
      fetchRefs refs token depth (.error e) (.error e2) =
        (.error (.afterDeepRetry (sanitizeError e2 token)),
         [⟨fetchFirstDepth depth, refs⟩, ⟨Config.fetchDeepDepth, refs⟩])) ∧
    (isShallowError e = false → ∀ second,
      fetchRefs refs token depth (.error e) second =
        (.error (.plain (sanitizeError e token)), [⟨fetchFirstDepth depth, refs⟩])) := by
  refine ⟨fun h => ?_, fun h => ?_, fun h second => ?_⟩ <;>
    simp [fetchRefs, h]

/-! ### Helper lemmas about execGit traces -/

theorem foldl_outData (token : Option String) (timeoutMs : Nat) (os : List String)
    (s : ExecState) :
    (os.map ExecEvent.outData).foldl (execStep token timeoutMs) s =
      { s with stdoutAcc := os.foldl (fun a b => a ++ b) s.stdoutAcc } := by
  induction os generalizing s with
  | nil => rfl
  | cons o os ih => simp [execStep, ih]

theorem foldl_errData (token : Option String) (timeoutMs : Nat) (es : List String)
    (s : ExecState) :
    (es.map ExecEvent.errData).foldl (execStep token timeoutMs) s =
      { s with stderrAcc := es.foldl (fun a b => a ++ b) s.stderrAcc } := by
  induction es generalizing s with
  | nil => rfl
  | cons e es ih => simp [execStep, ih]

/-- Running the data-delivery prefix of a trace only accumulates output. -/
theorem execRun_data_stage (token : Option String) (timeoutMs : Nat)
    (os es : List String) (rest : List ExecEvent) :
    execRun token timeoutMs (os.map ExecEvent.outData ++ es.map ExecEvent.errData ++ rest) =
      rest.foldl (execStep token timeoutMs)
        { initExecState with stdoutAcc := concatChunks os, stderrAcc := concatChunks es } := by
  simp [execRun, List.foldl_append, foldl_outData, foldl_errData, concatChunks, initExecState]

/-- The registry half of the execGit invariant: once the Promise of an
invocation has settled, its subprocess is no longer in `activeProcesses`. -/
def SettledImpliesRemoved (s : ExecState) : Prop :=
  s.settled.isSome = true → s.inSet = false

theorem execStep_preserves_removed (token : Option String) (timeoutMs : Nat)
    (s : ExecState) (e : ExecEvent) (h : SettledImpliesRemoved s) :
    SettledImpliesRemoved (execStep token timeoutMs s e) := by
  cases e with
  | outData d => exact h
  | errData d => exact h
  | timerFire =>
    by_cases ht : s.timerActive
    · intro _
      simp only [execStep, ht, if_pos, promiseSettle]
      split <;> rfl
    · simpa [execStep, ht] using h
  | close code =>
    intro _
    simp only [execStep]
    split
    · rfl
    · split <;> (simp only [promiseSettle]; split <;> rfl)
  | errEvt msg =>
    intro _
    simp only [execStep]
    split
    · rfl
    · simp only [promiseSettle]; split <;> rfl

theorem execRun_settled_removed (token : Option String) (timeoutMs : Nat)
    (events : List ExecEvent) : SettledImpliesRemoved (execRun token timeoutMs events) := by
  have h : ∀ s : ExecState, SettledImpliesRemoved s →
      SettledImpliesRemoved (events.foldl (execStep token timeoutMs) s) := by
    induction events with
    | nil => intro s hs; exact hs
    | cons e es ih =>
      intro s hs
      exact ih _ (execStep_preserves_removed token timeoutMs s e hs)
  exact h initExecState (by intro hsome; simp [initExecState] at hsome)

/-- Witness for C7 at concrete inputs: the message
"fatal: error processing shallow info" is shallow-related, and the run
retries once at depth 500 then succeeds (2 invocations). -/
theorem fetchRefs_shallow_retry_policy_witness :
    fetchRefs ["refs/heads/main"] "tok" none
        (.error "fatal: error processing shallow info") (.ok ()) =
      (.ok (), [⟨200, ["refs/heads/main"]⟩, ⟨500, ["refs/heads/main"]⟩]) :=
  (fetchRefs_shallow_retry_policy ["refs/heads/main"] "tok" none
    "fatal: error processing shallow info" "x").1 (by decide)

/-- C8: for every `execGit` invocation, whatever the fate of the
subprocess, the Promise settles (is never left pending), and:
a process still running at the timeout is forcibly killed and the call
fails with the timeout error; a process exiting non-zero (or closing
without an exit code) within the timeout fails with an error carrying
the sanitized stderr; a spawn failure fails with a launch error; a clean
exit resolves with the accumulated output. -/
theorem execGit_always_settles (token : Option String) (timeoutMs : Nat) (fate : ProcFate) :
    (execRun token timeoutMs (fateTrace fate)).settled.isSome = true ∧
    (match fate with
     | .spawnFailure msg =>
        (execRun token timeoutMs (fateTrace fate)).settled =
          some (.error (.launchErr (sanitizeApplied token msg)))
     | .exits _ _ _ false =>
        (execRun token timeoutMs (fateTrace fate)).settled =
          some (.error (.timeoutErr timeoutMs)) ∧
        (execRun token timeoutMs (fateTrace fate)).killed = true
     | .exits code os es true =>
        if code = some 0 then
          (execRun token timeoutMs (fateTrace fate)).settled =
            some (.ok ⟨concatChunks os, concatChunks es, 0⟩)
        else
          (execRun token timeoutMs (fateTrace fate)).settled =
            some (.error (.exitErr code (sanitizeApplied token (concatChunks es))))) := by
  cases fate with
  | spawnFailure msg =>
    constructor
    · simp [execRun, fateTrace, execStep, initExecState, promiseSettle]
    · simp only
      simp [execRun, fateTrace, execStep, initExecState, promiseSettle]
  | exits code os es withinTimeout =>
    cases withinTimeout with
    | true =>
      have hrun : execRun token timeoutMs (fateTrace (.exits code os es true)) =
          [ExecEvent.close code].foldl (execStep token timeoutMs)
            { initExecState with stdoutAcc := concatChunks os, stderrAcc := concatChunks es } :=
        execRun_data_stage token timeoutMs os es [ExecEvent.close code]
      constructor
      · rw [hrun]
        by_cases hc : code = some 0 <;> simp [execStep, initExecState, promiseSettle, hc]
      · dsimp only
        by_cases hc : code = some 0
        · rw [if_pos hc]
          simp only [hrun]
          simp [execStep, initExecState, promiseSettle, hc]
        · rw [if_neg hc]
          simp only [hrun]
          simp [execStep, initExecState, promiseSettle, hc]
    | false =>
      have hrun : execRun token timeoutMs (fateTrace (.exits code os es false)) =
          [ExecEvent.timerFire, ExecEvent.close code].foldl (execStep token timeoutMs)
            { initExecState with stdoutAcc := concatChunks os, stderrAcc := concatChunks es } :=
        execRun_data_stage token timeoutMs os es [ExecEvent.timerFire, ExecEvent.close code]
      refine ⟨?_, ?_, ?_⟩ <;>
        (rw [hrun]; simp [execStep, initExecState, promiseSettle])

/-- C10: the process registry invariant. The state right after `spawn`
has the subprocess registered in `activeProcesses` (`inSet = true`); for
every event trace, if the invocation's Promise has settled the subprocess
has been removed from the set; hence every registry whose members are
reachable, still-registered invocation states contains only invocations
that are still in flight (unsettled) — so `cleanupGitProcesses`
terminates only in-flight subprocesses — and after `cleanupGitProcesses`
the registry is empty. -/
theorem execGit_registry_invariant :
    initExecState.inSet = true ∧
    (∀ (token : Option String) (timeoutMs : Nat) (events : List ExecEvent),
      (execRun token timeoutMs events).settled.isSome = true →
      (execRun token timeoutMs events).inSet = false) ∧
    (∀ reg : List ExecState,
      (∀ p ∈ reg, p.inSet = true ∧
        ∃ token timeoutMs events, p = execRun token timeoutMs events) →
      ∀ p ∈ reg, p.settled = none) ∧
    (∀ reg : List ExecState, (cleanupGitProcesses reg).2 = []) := by
  refine ⟨rfl, ?_, ?_, fun reg => rfl⟩
  · intro token timeoutMs events h
    exact execRun_settled_removed token timeoutMs events h
  · intro reg hreg p hp
    obtain ⟨hin, token, timeoutMs, events, hre⟩ := hreg p hp
    by_contra hne
    have hsome : p.settled.isSome = true := by
      cases hs : p.settled with
      | none => exact absurd hs hne
      | some r => rfl
    have : p.inSet = false := by
      rw [hre] at hsome ⊢
      exact execRun_settled_removed token timeoutMs events hsome
    rw [hin] at this
    exact Bool.noConfusion this

/-! ### Helper lemmas about the range-diff handler -/

theorem jsTruthy_false_iff (o : Option String) :
    jsTruthy o = false ↔ o = none ∨ o = some "" := by
  cases o with
  | none => simp [jsTruthy]
  | some s =>
    simp only [jsTruthy, Bool.not_eq_false']
    constructor
    · intro h
      exact Or.inr (congrArg some ((String.isEmpty_iff s).mp h))
    · rintro (h | h)
      · exact absurd h (by simp)
      · cases h
        rfl

theorem jsTruthy_some_ne (s : String) (hs : s ≠ "") : jsTruthy (some s) = true := by
  cases h : jsTruthy (some s) with
  | true => rfl
  | false =>
    rcases (jsTruthy_false_iff (some s)).mp h with h2 | h2
    · exact absurd h2 (by simp)
    · exact absurd (by injection h2) hs

theorem skipConfirmPref_false_iff (db : Db) (userId : Nat) (owner repo : String) :
    skipConfirmPref db userId owner repo = false ↔
      getPreference db userId ("range_diff_skip_confirm:" ++ owner ++ "/" ++ repo) ≠
        some "1" := by
  unfold skipConfirmPref
  rcases h : getPreference db userId ("range_diff_skip_confirm:" ++ owner ++ "/" ++ repo)
    with _ | v
  · simp
  · simp [beq_eq_false_iff_ne]

theorem rangeDiffStage_ne_confirm (db : Db) (invs : List GitInvocation) (fromMb : String)
    (fromRev : RevisionRow) (toMb : String) (toRev : RevisionRow)
    (rdOracle : Except String RangeDiffResult) :
    (rangeDiffStage db invs fromMb fromRev toMb toRev rdOracle).1 ≠
      CompareOutcome.confirmationRequired := by
  cases rdOracle <;> simp [rangeDiffStage]

theorem toStage_ne_confirm (db : Db) (invs : List GitInvocation) (fromMb : String)
    (fromRev toRev : RevisionRow) (toId : Nat)
    (mbOracle : String → String → Except String String)
    (rdOracle : Except String RangeDiffResult) :
    (toStage db invs fromMb fromRev toRev toId mbOracle rdOracle).1 ≠
      CompareOutcome.confirmationRequired := by
  unfold toStage
  by_cases ht : jsTruthy toRev.mergeBaseSha
  · simpa [ht] using rangeDiffStage_ne_confirm db invs fromMb fromRev
      (toRev.mergeBaseSha.getD "") toRev rdOracle
  · cases hmb : mbOracle toRev.baseSha toRev.headSha with
    | error e => simp [ht, hmb]
    | ok mb =>
      simpa [ht, hmb] using rangeDiffStage_ne_confirm (updateMergeBase db toId mb)
        (invs ++ [GitInvocation.mergeBase toId toRev.baseSha toRev.headSha]) fromMb fromRev mb
        toRev rdOracle

theorem fromStage_ne_confirm (db : Db) (fromRev toRev : RevisionRow) (fromId toId : Nat)
    (mbOracle : String → String → Except String String)
    (rdOracle : Except String RangeDiffResult) :
    (fromStage db fromRev toRev fromId toId mbOracle rdOracle).1 ≠
      CompareOutcome.confirmationRequired := by
  unfold fromStage
  by_cases hf : jsTruthy fromRev.mergeBaseSha
  · simpa [hf] using toStage_ne_confirm db [] (fromRev.mergeBaseSha.getD "") fromRev toRev toId
      mbOracle rdOracle
  · cases hmb : mbOracle fromRev.baseSha fromRev.headSha with
    | error e => simp [hf, hmb]
    | ok mb =>
      simpa [hf, hmb] using toStage_ne_confirm (updateMergeBase db fromId mb)
        [GitInvocation.mergeBase fromId fromRev.baseSha fromRev.headSha] mb fromRev toRev toId
        mbOracle rdOracle

/-- C2: for every pair of revisions present in the ledger (with
merge-base fields as the program produces them: null or a non-empty
sha), the handler returns ConfirmationRequired iff at least one of the
two revisions has a null `merge_base_sha` and the user's skip preference
for `(owner, repo)` is absent or not `'1'` — a pure function of the
ledger rows and the preference row, for every oracle behaviour. -/
theorem compareRevisions_confirmation_iff (db : Db) (owner repo : String)
    (userId fromId toId : Nat) (mbOracle : String → String → Except String String)
    (rdOracle : Except String RangeDiffResult) (fromRev toRev : RevisionRow)
    (hf : findRevision db fromId = some fromRev) (ht : findRevision db toId = some toRev)
    (hfmb : fromRev.mergeBaseSha ≠ some "") (htmb : toRev.mergeBaseSha ≠ some "") :
    (compareRevisions db owner repo userId fromId toId mbOracle rdOracle).1 =
        CompareOutcome.confirmationRequired ↔
      ((fromRev.mergeBaseSha = none ∨ toRev.mergeBaseSha = none) ∧
        getPreference db userId ("range_diff_skip_confirm:" ++ owner ++ "/" ++ repo) ≠
          some "1") := by
  unfold compareRevisions
  rw [hf, ht]
  dsimp only
  by_cases hc : ((!jsTruthy fromRev.mergeBaseSha || !jsTruthy toRev.mergeBaseSha) &&
      !skipConfirmPref db userId owner repo) = true
  · rw [if_pos hc]
    rw [Bool.and_eq_true, Bool.or_eq_true, Bool.not_eq_true', Bool.not_eq_true',
      Bool.not_eq_true'] at hc
    obtain ⟨hor, hskip⟩ := hc
    constructor
    · intro _
      constructor
      · rcases hor with h | h
        · left
          rcases (jsTruthy_false_iff fromRev.mergeBaseSha).mp h with h2 | h2
          · exact h2
          · exact absurd h2 hfmb
        · right
          rcases (jsTruthy_false_iff toRev.mergeBaseSha).mp h with h2 | h2
          · exact h2
          · exact absurd h2 htmb
      · exact (skipConfirmPref_false_iff db userId owner repo).mp hskip
    · intro _
      rfl
  · rw [if_neg hc]
    constructor
    · intro h
      exact absurd h (fromStage_ne_confirm db fromRev toRev fromId toId mbOracle rdOracle)
    · rintro ⟨hor, hskip⟩
      exfalso
      apply hc
      rw [Bool.and_eq_true, Bool.or_eq_true, Bool.not_eq_true', Bool.not_eq_true',
        Bool.not_eq_true']
      constructor
      · rcases hor with h | h
        · exact Or.inl (by simp [h, jsTruthy])
        · exact Or.inr (by simp [h, jsTruthy])
      · exact (skipConfirmPref_false_iff db userId owner repo).mpr hskip

/-- Witness for C2: a ledger with two revisions, `from` lacking a merge
base, and no stored preference — the handler requires confirmation. -/
theorem compareRevisions_confirmation_iff_witness :
    findRevision sampleDb 1 = some sampleRev1 ∧
    findRevision sampleDb 2 = some sampleRev2 ∧
    (compareRevisions sampleDb "o" "r" 9 1 2 sampleMbOracle sampleRdOracle).1 =
      CompareOutcome.confirmationRequired :=
  ⟨by decide, by decide,
   (compareRevisions_confirmation_iff sampleDb "o" "r" 9 1 2 sampleMbOracle sampleRdOracle
       sampleRev1 sampleRev2 (by decide) (by decide) (by decide) (by decide)).mpr
     ⟨Or.inl rfl, by decide⟩⟩

/-- C3: whenever the handler returns ConfirmationRequired, the persisted
state is unchanged (no ledger row, no preference row) and no
external-tool invocation was performed. -/
theorem compareRevisions_confirm_no_mutation (db : Db) (owner repo : String)
    (userId fromId toId : Nat) (mbOracle : String → String → Except String String)
    (rdOracle : Except String RangeDiffResult)
    (h : (compareRevisions db owner repo userId fromId toId mbOracle rdOracle).1 =
      CompareOutcome.confirmationRequired) :
    (compareRevisions db owner repo userId fromId toId mbOracle rdOracle).2.1 = db ∧
    (compareRevisions db owner repo userId fromId toId mbOracle rdOracle).2.2 = [] := by
  unfold compareRevisions at h ⊢
  rcases hf : findRevision db fromId with _ | fromRev
  · rw [hf] at h
    simp at h
  · rcases ht : findRevision db toId with _ | toRev
    · rw [hf, ht] at h
      simp at h
    · rw [hf, ht] at h
      dsimp only at h ⊢
      by_cases hc : ((!jsTruthy fromRev.mergeBaseSha || !jsTruthy toRev.mergeBaseSha) &&
          !skipConfirmPref db userId owner repo) = true
      · rw [if_pos hc]
        exact ⟨rfl, rfl⟩
      · rw [if_neg hc] at h
        exact absurd h (fromStage_ne_confirm db fromRev toRev fromId toId mbOracle rdOracle)

/-- Witness for C3: the confirmation outcome of the C2 scenario leaves
the database exactly as it was and performs no git invocation. -/
theorem compareRevisions_confirm_no_mutation_witness :
    (compareRevisions sampleDb "o" "r" 9 1 2 sampleMbOracle sampleRdOracle).2.1 = sampleDb ∧
    (compareRevisions sampleDb "o" "r" 9 1 2 sampleMbOracle sampleRdOracle).2.2 = [] :=
  compareRevisions_confirm_no_mutation sampleDb "o" "r" 9 1 2 sampleMbOracle sampleRdOracle
    (by decide)

theorem find_map_preserving {α : Type} (f : α → α) (p : α → Bool)
    (hp : ∀ a, p (f a) = p a) (hf : ∀ a, p a = true → f a = a) (l : List α) :
    (l.map f).find? p = l.find? p := by
  induction l with
  | nil => rfl
  | cons a l ih =>
    simp only [List.map_cons]
    cases hpa : p a with
    | true =>
      rw [List.find?_cons_of_pos _ (by rw [hp a]; exact hpa), List.find?_cons_of_pos _ hpa,
        hf a hpa]
    | false =>
      rw [List.find?_cons_of_neg _ (by rw [hp a, hpa]; exact Bool.false_ne_true),
        List.find?_cons_of_neg _ (by rw [hpa]; exact Bool.false_ne_true), ih]

/-- Updating the merge base of revision `uid` does not change what a
lookup of a different id sees. -/
theorem findRevision_updateMergeBase_ne (db : Db) (rid uid : Nat) (mb : String)
    (h : rid ≠ uid) :
    findRevision (updateMergeBase db uid mb) rid = findRevision db rid := by
  unfold findRevision updateMergeBase
  dsimp only
  apply find_map_preserving
  · intro a
    by_cases ha : a.id == uid <;> simp [ha]
  · intro a ha
    have : a.id = rid := by simpa using ha
    rw [if_neg]
    simp [this, h]

theorem toStage_no_touch (db : Db) (invs : List GitInvocation) (fromMb : String)
    (fromRev toRev : RevisionRow) (toId : Nat)
    (mbOracle : String → String → Except String String)
    (rdOracle : Except String RangeDiffResult) (rid : Nat)
    (hcond : rid ≠ toId ∨ jsTruthy toRev.mergeBaseSha = true) :
    (∀ b h, GitInvocation.mergeBase rid b h ∈
        (toStage db invs fromMb fromRev toRev toId mbOracle rdOracle).2.2 →
      GitInvocation.mergeBase rid b h ∈ invs) ∧
    findRevision (toStage db invs fromMb fromRev toRev toId mbOracle rdOracle).2.1 rid =
      findRevision db rid := by
  unfold toStage
  by_cases ht : jsTruthy toRev.mergeBaseSha
  · rw [if_pos ht]
    unfold rangeDiffStage
    cases rdOracle <;>
      exact ⟨fun b h hmem => by simpa using hmem, rfl⟩
  · have hne : rid ≠ toId := hcond.resolve_right ht
    rw [if_neg ht]
    cases hmb : mbOracle toRev.baseSha toRev.headSha with
    | error e =>
      refine ⟨fun b h hmem => ?_, rfl⟩
      rcases List.mem_append.mp hmem with hin | hin
      · exact hin
      · have := List.mem_singleton.mp hin
        injection this with h1 h2 h3
        exact absurd h1 hne
    | ok mb =>
      unfold rangeDiffStage
      cases rdOracle with
      | ok rd =>
        refine ⟨fun b h hmem => ?_, findRevision_updateMergeBase_ne db rid toId mb hne⟩
        rcases List.mem_append.mp hmem with hin | hin
        · rcases List.mem_append.mp hin with hin2 | hin2
          · exact hin2
          · have := List.mem_singleton.mp hin2
            injection this with h1 h2 h3
            exact absurd h1 hne
        · exact absurd (List.mem_singleton.mp hin) (by simp)
      | error e2 =>
        refine ⟨fun b h hmem => ?_, findRevision_updateMergeBase_ne db rid toId mb hne⟩
        rcases List.mem_append.mp hmem with hin | hin
        · rcases List.mem_append.mp hin with hin2 | hin2
          · exact hin2
          · have := List.mem_singleton.mp hin2
            injection this with h1 h2 h3
            exact absurd h1 hne
        · exact absurd (List.mem_singleton.mp hin) (by simp)

theorem fromStage_no_touch (db : Db) (fromRev toRev : RevisionRow) (fromId toId : Nat)
    (mbOracle : String → String → Except String String)
    (rdOracle : Except String RangeDiffResult) (rid : Nat)
    (hfrom : rid ≠ fromId ∨ jsTruthy fromRev.mergeBaseSha = true)
    (hto : rid ≠ toId ∨ jsTruthy toRev.mergeBaseSha = true) :
    (∀ b h, GitInvocation.mergeBase rid b h ∉
        (fromStage db fromRev toRev fromId toId mbOracle rdOracle).2.2) ∧
    findRevision (fromStage db fromRev toRev fromId toId mbOracle rdOracle).2.1 rid =
      findRevision db rid := by
  unfold fromStage
  by_cases hf : jsTruthy fromRev.mergeBaseSha
  · rw [if_pos hf]
    have h2 := toStage_no_touch db [] (fromRev.mergeBaseSha.getD "") fromRev toRev toId
      mbOracle rdOracle rid hto
    exact ⟨fun b h hmem => absurd (h2.1 b h hmem) (List.not_mem_nil _), h2.2⟩
  · have hne : rid ≠ fromId := hfrom.resolve_right hf
    rw [if_neg hf]
    cases hmb : mbOracle fromRev.baseSha fromRev.headSha with
    | error e =>
      refine ⟨fun b h hmem => ?_, rfl⟩
      have := List.mem_singleton.mp hmem
      injection this with h1 h2 h3
      exact absurd h1 hne
    | ok mb =>
      have h2 := toStage_no_touch (updateMergeBase db fromId mb)
        [GitInvocation.mergeBase fromId fromRev.baseSha fromRev.headSha] mb fromRev toRev toId
        mbOracle rdOracle rid hto
      refine ⟨fun b h hmem => ?_, ?_⟩
      · have := List.mem_singleton.mp (h2.1 b h hmem)
        injection this with h1 h2 h3
        exact absurd h1 hne
      · rw [h2.2]
        exact findRevision_updateMergeBase_ne db rid fromId mb hne

/-- C6: once a revision's `merge_base_sha` is non-null (and as the
program stores it, non-empty), it is never recomputed: in any handler
call involving that revision (as the `from` or the `to` side, for every
oracle behaviour and preference state), no `computeMergeBase` invocation
is performed for it and its stored row is unchanged. -/
theorem compareRevisions_no_recompute (db : Db) (owner repo : String)
    (userId fromId toId rid : Nat) (mbOracle : String → String → Except String String)
    (rdOracle : Except String RangeDiffResult) (rev : RevisionRow) (s : String)
    (hfind : findRevision db rid = some rev)
    (hmb : rev.mergeBaseSha = some s) (hs : s ≠ "")
    (_hside : rid = fromId ∨ rid = toId) :
    (∀ b h, GitInvocation.mergeBase rid b h ∉
        (compareRevisions db owner repo userId fromId toId mbOracle rdOracle).2.2) ∧
    findRevision (compareRevisions db owner repo userId fromId toId mbOracle rdOracle).2.1
        rid = some rev := by
  have htruthy : jsTruthy rev.mergeBaseSha = true := by
    rw [hmb]
    exact jsTruthy_some_ne s hs
  unfold compareRevisions
  rcases hf : findRevision db fromId with _ | fromRev
  · exact ⟨fun b h => List.not_mem_nil _, hfind⟩
  · rcases ht : findRevision db toId with _ | toRev
    · exact ⟨fun b h => List.not_mem_nil _, hfind⟩
    · dsimp only
      by_cases hc : ((!jsTruthy fromRev.mergeBaseSha || !jsTruthy toRev.mergeBaseSha) &&
          !skipConfirmPref db userId owner repo) = true
      · rw [if_pos hc]
        exact ⟨fun b h => List.not_mem_nil _, hfind⟩
      · rw [if_neg hc]
        have hfrom : rid ≠ fromId ∨ jsTruthy fromRev.mergeBaseSha = true := by
          by_cases he : rid = fromId
          · right
            have : fromRev = rev := by
              rw [he] at hfind
              rw [hfind] at hf
              exact (Option.some_injective _ hf).symm
            rw [this]
            exact htruthy
          · exact Or.inl he
        have hto : rid ≠ toId ∨ jsTruthy toRev.mergeBaseSha = true := by
          by_cases he : rid = toId
          · right
            have : toRev = rev := by
              rw [he] at hfind
              rw [hfind] at ht
              exact (Option.some_injective _ ht).symm
            rw [this]
            exact htruthy
          · exact Or.inl he
        have h2 := fromStage_no_touch db fromRev toRev fromId toId mbOracle rdOracle rid
          hfrom hto
        refine ⟨h2.1, ?_⟩
        rw [h2.2]
        exact hfind

/-- Witness for C6: both revisions already have non-empty merge bases, so
the handler performs no merge-base invocation for revision 2 and leaves
its row untouched. -/
theorem compareRevisions_no_recompute_witness :
    findRevision (Db.mk [sampleRev2] []) 2 = some sampleRev2 ∧
    sampleRev2.mergeBaseSha = some "m2" ∧
    ((∀ b h, GitInvocation.mergeBase 2 b h ∉
        (compareRevisions (Db.mk [sampleRev2] []) "o" "r" 9 2 2 sampleMbOracle
          sampleRdOracle).2.2) ∧
      findRevision (compareRevisions (Db.mk [sampleRev2] []) "o" "r" 9 2 2 sampleMbOracle
          sampleRdOracle).2.1 2 = some sampleRev2) :=
  ⟨by decide, by decide,
   compareRevisions_no_recompute (Db.mk [sampleRev2] []) "o" "r" 9 2 2 2 sampleMbOracle
     sampleRdOracle sampleRev2 "m2" (by decide) (by decide) (by decide) (Or.inl rfl)⟩

/-! ### Helper lemmas about the backfill save loop -/

theorem saveRevision_head_mem (db : Db) (owner repo : String) (prNumber : Nat)
    (headSha headRef baseSha baseRef : String) (seenAt : Option String) (now sha : String) :
    (∃ r ∈ (saveRevision db owner repo prNumber headSha headRef baseSha baseRef seenAt
        now).revisions,
      r.owner = owner ∧ r.repo = repo ∧ r.prNumber = prNumber ∧ r.headSha = sha) ↔
      ((∃ r ∈ db.revisions,
          r.owner = owner ∧ r.repo = repo ∧ r.prNumber = prNumber ∧ r.headSha = sha) ∨
        sha = headSha) := by
  unfold saveRevision insertRevision
  by_cases hany : db.revisions.any (fun x => matchesKey x owner repo prNumber headSha) = true
  · rw [if_pos hany]
    constructor
    · exact Or.inl
    · rintro (h | rfl)
      · exact h
      · rcases List.any_eq_true.mp hany with ⟨x, hx, hpx⟩
        simp only [matchesKey, Bool.and_eq_true, beq_iff_eq] at hpx
        exact ⟨x, hx, hpx.1.1.1, hpx.1.1.2, hpx.1.2, hpx.2⟩
  · rw [if_neg hany]
    dsimp only
    constructor
    · rintro ⟨r, hr, hp⟩
      rcases List.mem_append.mp hr with h1 | h1
      · exact Or.inl ⟨r, h1, hp⟩
      · have h2 := List.mem_singleton.mp h1
        subst h2
        exact Or.inr hp.2.2.2.symm
    · rintro (⟨r, hr, hp⟩ | rfl)
      · exact ⟨r, List.mem_append_left _ hr, hp⟩
      · exact ⟨_, List.mem_append_right _ (List.mem_singleton.mpr rfl),
          rfl, rfl, rfl, rfl⟩

theorem backfillSaveAll_head_mem (owner repo : String) (prNumber : Nat)
    (headRef baseSha baseRef : String) (revs : List (String × String)) (db : Db)
    (sha : String) :
    (∃ r ∈ (backfillSaveAll db owner repo prNumber headRef baseSha baseRef revs).revisions,
      r.owner = owner ∧ r.repo = repo ∧ r.prNumber = prNumber ∧ r.headSha = sha) ↔
      ((∃ r ∈ db.revisions,
          r.owner = owner ∧ r.repo = repo ∧ r.prNumber = prNumber ∧ r.headSha = sha) ∨
        sha ∈ revs.map Prod.fst) := by
  induction revs generalizing db with
  | nil => simp [backfillSaveAll]
  | cons rv rest ih =>
    have hstep : backfillSaveAll db owner repo prNumber headRef baseSha baseRef (rv :: rest) =
        backfillSaveAll
          (saveRevision db owner repo prNumber rv.1 headRef baseSha baseRef (some rv.2) "")
          owner repo prNumber headRef baseSha baseRef rest := rfl
    rw [hstep, ih, saveRevision_head_mem]
    simp only [List.map_cons, List.mem_cons]
    exact or_assoc

theorem saveRevision_key_unique (db : Db) (owner repo : String) (prNumber : Nat)
    (headSha headRef baseSha baseRef : String) (seenAt : Option String) (now : String)
    (hinv : ∀ sha,
      db.revisions.countP (fun r => matchesKey r owner repo prNumber sha) ≤ 1) :
    ∀ sha, (saveRevision db owner repo prNumber headSha headRef baseSha baseRef seenAt
        now).revisions.countP (fun r => matchesKey r owner repo prNumber sha) ≤ 1 := by
  intro sha
  unfold saveRevision insertRevision
  by_cases hany : db.revisions.any (fun x => matchesKey x owner repo prNumber headSha) = true
  · rw [if_pos hany]
    exact hinv sha
  · rw [if_neg hany]
    dsimp only
    rw [List.countP_append]
    by_cases hsha : sha = headSha
    · subst hsha
      have hz : db.revisions.countP (fun r => matchesKey r owner repo prNumber sha) = 0 := by
        rw [List.countP_eq_zero]
        intro a ha hpa
        exact hany (List.any_eq_true.mpr ⟨a, ha, hpa⟩)
      rw [hz]
      simp [matchesKey]
    · have hone : List.countP (fun r => matchesKey r owner repo prNumber sha)
          [({ id := nextRevisionId db, owner := owner, repo := repo, prNumber := prNumber,
              headSha := headSha, headRef := headRef, baseSha := baseSha, baseRef := baseRef,
              mergeBaseSha := none, seenAt := seenAt.getD now } : RevisionRow)] = 0 := by
        simp [matchesKey, Ne.symm hsha]
      rw [hone]
      simpa using hinv sha

theorem backfillSaveAll_key_unique (owner repo : String) (prNumber : Nat)
    (headRef baseSha baseRef : String) (revs : List (String × String)) (db : Db)
    (hinv : ∀ sha,
      db.revisions.countP (fun r => matchesKey r owner repo prNumber sha) ≤ 1) :
    ∀ sha, (backfillSaveAll db owner repo prNumber headRef baseSha baseRef
        revs).revisions.countP (fun r => matchesKey r owner repo prNumber sha) ≤ 1 := by
  induction revs generalizing db with
  | nil => exact hinv
  | cons rv rest ih =>
    exact ih _ (saveRevision_key_unique db owner repo prNumber rv.1 headRef baseSha baseRef
      (some rv.2) "" hinv)

theorem collectRevisions_mem_fst (timeline : List TimelineEvent) (currentHeadSha now : String)
    (sha : String) :
    sha ∈ (collectRevisions timeline currentHeadSha now).map Prod.fst ↔
      (sha ∈ (forcePushShas timeline).map Prod.fst ∨ sha = currentHeadSha) := by
  unfold collectRevisions
  dsimp only
  by_cases hany : (forcePushShas timeline).any (fun r => r.1 == currentHeadSha) = true
  · rw [if_pos hany]
    constructor
    · intro h
      rcases List.mem_map.mp h with ⟨x, hx, hfst⟩
      exact Or.inl (List.mem_map.mpr ⟨x, (List.mem_insertionSort tsLe).mp hx, hfst⟩)
    · rintro (h | rfl)
      · rcases List.mem_map.mp h with ⟨x, hx, hfst⟩
        exact List.mem_map.mpr ⟨x, (List.mem_insertionSort tsLe).mpr hx, hfst⟩
      · rcases List.any_eq_true.mp hany with ⟨x, hx, hpx⟩
        exact List.mem_map.mpr ⟨x, (List.mem_insertionSort tsLe).mpr hx, beq_iff_eq.mp hpx⟩
  · rw [if_neg hany]
    constructor
    · intro h
      rcases List.mem_map.mp h with ⟨x, hx, hfst⟩
      rcases List.mem_append.mp ((List.mem_insertionSort tsLe).mp hx) with h1 | h1
      · exact Or.inl (List.mem_map.mpr ⟨x, h1, hfst⟩)
      · have h2 := List.mem_singleton.mp h1
        subst h2
        exact Or.inr hfst.symm
    · rintro (h | rfl)
      · rcases List.mem_map.mp h with ⟨x, hx, hfst⟩
        exact List.mem_map.mpr ⟨x, (List.mem_insertionSort tsLe).mpr
          (List.mem_append_left _ hx), hfst⟩
      · exact List.mem_map.mpr ⟨(sha, now), (List.mem_insertionSort tsLe).mpr
          (List.mem_append_right _ (List.mem_singleton.mpr rfl)), rfl⟩

/-- C4: for every timeline, starting from a ledger with no rows for this
change-set, `backfillRevisions` inserts revision rows whose head-commit
set equals {commit ids of `head_ref_force_pushed` events that carry a
commit id} ∪ {current head}, deduplicated on the revision uniqueness key
(at most one row per head), and the save loop processes the revisions in
ascending event-timestamp order. -/
theorem backfillRevisions_set_and_order (db : Db) (owner repo : String) (prNumber : Nat)
    (baseRef baseSha headRef currentHeadSha now : String) (timeline : List TimelineEvent)
    (hempty : ∀ r ∈ db.revisions,
      ¬(r.owner = owner ∧ r.repo = repo ∧ r.prNumber = prNumber)) :
    (∀ sha,
      (∃ r ∈ (backfillRevisions db owner repo prNumber baseRef baseSha headRef currentHeadSha
          timeline now).revisions,
        r.owner = owner ∧ r.repo = repo ∧ r.prNumber = prNumber ∧ r.headSha = sha) ↔
        (sha ∈ (forcePushShas timeline).map Prod.fst ∨ sha = currentHeadSha)) ∧
    (∀ sha,
      (backfillRevisions db owner repo prNumber baseRef baseSha headRef currentHeadSha
          timeline now).revisions.countP
        (fun r => matchesKey r owner repo prNumber sha) ≤ 1) ∧
    (collectRevisions timeline currentHeadSha now).Sorted tsLe := by
  refine ⟨fun sha => ?_, fun sha => ?_, List.sorted_insertionSort tsLe _⟩
  · unfold backfillRevisions
    rw [backfillSaveAll_head_mem, collectRevisions_mem_fst]
    have hnone : ¬(∃ r ∈ db.revisions,
        r.owner = owner ∧ r.repo = repo ∧ r.prNumber = prNumber ∧ r.headSha = sha) := by
      rintro ⟨r, hr, h1, h2, h3, _⟩
      exact hempty r hr ⟨h1, h2, h3⟩
    simp [hnone]
  · unfold backfillRevisions
    refine backfillSaveAll_key_unique owner repo prNumber headRef baseSha baseRef _ db
      (fun sha2 => ?_) sha
    have hz : db.revisions.countP (fun r => matchesKey r owner repo prNumber sha2) = 0 := by
      rw [List.countP_eq_zero]
      intro a ha hpa
      simp only [matchesKey, Bool.and_eq_true, beq_iff_eq] at hpa
      exact hempty a ha ⟨hpa.1.1.1, hpa.1.1.2, hpa.1.2⟩
    rw [hz]
    omega

/-- Witness for C4: a timeline with one force push (commit `f1`) and one
unrelated event, current head `h9`, backfilled into an empty ledger. -/
theorem backfillRevisions_set_and_order_witness :
    (∀ r ∈ (Db.mk [] []).revisions, ¬(r.owner = "o" ∧ r.repo = "r" ∧ r.prNumber = 5)) ∧
    ((∀ sha,
      (∃ r ∈ (backfillRevisions (Db.mk [] []) "o" "r" 5 "br" "b" "hr" "h9"
          [⟨"head_ref_force_pushed", "2024-01-02T00:00:00Z", some "f1"⟩,
           ⟨"committed", "2024-01-01T00:00:00Z", some "c0"⟩] "2024-01-03T00:00:00Z").revisions,
        r.owner = "o" ∧ r.repo = "r" ∧ r.prNumber = 5 ∧ r.headSha = sha) ↔
        (sha ∈ (forcePushShas
          [⟨"head_ref_force_pushed", "2024-01-02T00:00:00Z", some "f1"⟩,
           ⟨"committed", "2024-01-01T00:00:00Z", some "c0"⟩]).map Prod.fst ∨ sha = "h9")) ∧
    (∀ sha,
      (backfillRevisions (Db.mk [] []) "o" "r" 5 "br" "b" "hr" "h9"
          [⟨"head_ref_force_pushed", "2024-01-02T00:00:00Z", some "f1"⟩,
           ⟨"committed", "2024-01-01T00:00:00Z", some "c0"⟩] "2024-01-03T00:00:00Z").revisions.countP
        (fun r => matchesKey r "o" "r" 5 sha) ≤ 1) ∧
    (collectRevisions
      [⟨"head_ref_force_pushed", "2024-01-02T00:00:00Z", some "f1"⟩,
       ⟨"committed", "2024-01-01T00:00:00Z", some "c0"⟩] "h9" "2024-01-03T00:00:00Z").Sorted
      tsLe) :=
  ⟨by simp,
   backfillRevisions_set_and_order (Db.mk [] []) "o" "r" 5 "br" "b" "hr" "h9"
     "2024-01-03T00:00:00Z"
     [⟨"head_ref_force_pushed", "2024-01-02T00:00:00Z", some "f1"⟩,
      ⟨"committed", "2024-01-01T00:00:00Z", some "c0"⟩] (by simp)⟩

theorem saveRevisionF_rows (res : Except String Unit) (db : Db) (owner repo : String)
    (prNumber : Nat) (headSha headRef baseSha baseRef : String) (seenAt : Option String)
    (now : String) (r : RevisionRow)
    (h : r ∈ (saveRevisionF res db owner repo prNumber headSha headRef baseSha baseRef seenAt
      now).revisions) :
    r ∈ db.revisions ∨ r.headSha = headSha := by
  cases res with
  | error e => exact Or.inl h
  | ok u =>
    unfold saveRevisionF saveRevision insertRevision at h
    by_cases hany : db.revisions.any
        (fun x => matchesKey x owner repo prNumber headSha) = true
    · rw [if_pos hany] at h
      exact Or.inl h
    · rw [if_neg hany] at h
      dsimp only at h
      rcases List.mem_append.mp h with h1 | h1
      · exact Or.inl h1
      · have h2 := List.mem_singleton.mp h1
        subst h2
        exact Or.inr rfl

theorem foldSaves_rows (ins : Nat → Except String Unit) (owner repo : String)
    (prNumber : Nat) (headRef baseSha baseRef : String)
    (l : List (Nat × String × String)) (db : Db) (r : RevisionRow)
    (h : r ∈ (l.foldl
      (fun d ri => saveRevisionF (ins ri.1) d owner repo prNumber ri.2.1 headRef baseSha
        baseRef (some ri.2.2) "")
      db).revisions) :
    r ∈ db.revisions ∨ r.headSha ∈ l.map (fun ri => ri.2.1) := by
  induction l generalizing db with
  | nil => exact Or.inl h
  | cons a rest ih =>
    rcases ih _ h with h1 | h1
    · rcases saveRevisionF_rows (ins a.1) db owner repo prNumber a.2.1 headRef baseSha
        baseRef (some a.2.2) "" r h1 with h2 | h2
      · exact Or.inl h2
      · exact Or.inr (by simp [h2])
    · exact Or.inr (by simp [h1])

theorem enumFrom_map_snd_fst (l : List (String × String)) (n : Nat) :
    (List.enumFrom n l).map (fun ri => ri.2.1) = l.map Prod.fst := by
  induction l generalizing n with
  | nil => rfl
  | cons a l ih => simp [List.enumFrom, ih]

/-- C9: `backfillRevisions` never propagates an error to its caller: if
the timeline source fails, the catch swallows the error and the ledger is
untouched; if the timeline succeeds, the try body completes successfully
whatever each individual insert does (inserts swallow their own
failures); and in all cases the operation degrades — every row present
afterwards was either already there or is one of the collected revisions
(never a failure surfaced, never extra data). -/
theorem backfillRevisionsF_never_propagates
    (timelineRes : Except String (List TimelineEvent))
    (insertResults : Nat → Except String Unit) (db : Db) (owner repo : String)
    (prNumber : Nat) (baseRef baseSha headRef currentHeadSha now : String) :
    (∀ e, timelineRes = .error e →
      backfillRevisionsF timelineRes insertResults db owner repo prNumber baseRef baseSha
        headRef currentHeadSha now = db) ∧
    (∀ timeline, timelineRes = .ok timeline →
      backfillTry timelineRes insertResults db owner repo prNumber baseRef baseSha headRef
          currentHeadSha now =
        .ok (backfillRevisionsF timelineRes insertResults db owner repo prNumber baseRef
          baseSha headRef currentHeadSha now)) ∧
    (∀ r, r ∈ (backfillRevisionsF timelineRes insertResults db owner repo prNumber baseRef
        baseSha headRef currentHeadSha now).revisions →
      (r ∈ db.revisions ∨ ∃ timeline, timelineRes = .ok timeline ∧
        r.headSha ∈ (collectRevisions timeline currentHeadSha now).map Prod.fst)) := by
  refine ⟨fun e he => ?_, fun timeline ht => ?_, fun r hr => ?_⟩
  · subst he
    rfl
  · subst ht
    rfl
  · cases timelineRes with
    | error e =>
      exact Or.inl hr
    | ok timeline =>
      have hr2 : r ∈ ((collectRevisions timeline currentHeadSha now).enum.foldl
          (fun d ri => saveRevisionF (insertResults ri.1) d owner repo prNumber ri.2.1
            headRef baseSha baseRef (some ri.2.2) "")
          db).revisions := hr
      rcases foldSaves_rows insertResults owner repo prNumber headRef baseSha baseRef
        (collectRevisions timeline currentHeadSha now).enum db r hr2 with h1 | h1
      · exact Or.inl h1
      · refine Or.inr ⟨timeline, rfl, ?_⟩
        rwa [List.enum, enumFrom_map_snd_fst] at h1

/-- Witness for C9: a failing timeline source is swallowed and the ledger
is returned unchanged. -/
theorem backfillRevisionsF_never_propagates_witness :
    backfillRevisionsF (.error "boom") (fun _ => .ok ()) sampleDb "o" "r" 5 "br" "b" "hr"
      "h9" "t" = sampleDb :=
  (backfillRevisionsF_never_propagates (.error "boom") (fun _ => .ok ()) sampleDb "o" "r" 5
    "br" "b" "hr" "h9" "t").1 "boom" rfl

/-- C5: `saveRevision` (the spec's `recordRevision`) is idempotent.
Under the table's UNIQUE constraint (at most one row per
`(owner, repo, pr_number, head_sha)`), invoking it twice with the same
key — the non-key fields and timestamps may even differ — leaves exactly
one matching row, and the second invocation changes nothing (so no field
of the existing row is overwritten). -/
theorem saveRevision_idempotent (db : Db) (owner repo : String) (prNumber : Nat)
    (headSha headRef baseSha baseRef headRef2 baseSha2 baseRef2 : String)
    (seenAt seenAt2 : Option String) (now now2 : String)
    (huniq : db.revisions.countP (fun r => matchesKey r owner repo prNumber headSha) ≤ 1) :
    saveRevision (saveRevision db owner repo prNumber headSha headRef baseSha baseRef seenAt now)
        owner repo prNumber headSha headRef2 baseSha2 baseRef2 seenAt2 now2 =
      saveRevision db owner repo prNumber headSha headRef baseSha baseRef seenAt now ∧
    (saveRevision db owner repo prNumber headSha headRef baseSha baseRef seenAt
        now).revisions.countP (fun r => matchesKey r owner repo prNumber headSha) = 1 := by
  by_cases hany : db.revisions.any
      (fun x => matchesKey x owner repo prNumber headSha) = true
  · have hpos : 0 < db.revisions.countP (fun r => matchesKey r owner repo prNumber headSha) := by
      rw [List.countP_pos_iff]
      simpa [List.any_eq_true] using hany
    have h1 : saveRevision db owner repo prNumber headSha headRef baseSha baseRef seenAt now =
        db := by
      simp [saveRevision, insertRevision, hany]
    rw [h1]
    refine ⟨by simp [saveRevision, insertRevision, hany], by omega⟩
  · have hz : db.revisions.countP (fun r => matchesKey r owner repo prNumber headSha) = 0 := by
      rw [List.countP_eq_zero]
      intro a ha hpa
      exact hany (List.any_eq_true.mpr ⟨a, ha, hpa⟩)
    have h1 : saveRevision db owner repo prNumber headSha headRef baseSha baseRef seenAt now =
        { db with revisions := db.revisions ++
            [{ id := nextRevisionId db, owner := owner, repo := repo, prNumber := prNumber,
               headSha := headSha, headRef := headRef, baseSha := baseSha, baseRef := baseRef,
               mergeBaseSha := none, seenAt := seenAt.getD now }] } := by
      simp [saveRevision, insertRevision, hany]
    constructor
    · rw [h1]
      simp [saveRevision, insertRevision, List.any_append, matchesKey]
    · rw [h1]
      simp only [List.countP_append]
      rw [hz]
      simp [matchesKey]

/-- Witness for C5: starting from an empty ledger, two saves of the same
key leave exactly one matching row and the second save is a no-op. -/
theorem saveRevision_idempotent_witness :
    (Db.mk [] []).revisions.countP (fun r => matchesKey r "o" "r" 1 "h") ≤ 1 ∧
    (saveRevision (saveRevision (Db.mk [] []) "o" "r" 1 "h" "ref" "b" "bref" none "t1")
        "o" "r" 1 "h" "ref2" "b2" "bref2" (some "t0") "t2" =
      saveRevision (Db.mk [] []) "o" "r" 1 "h" "ref" "b" "bref" none "t1" ∧
    (saveRevision (Db.mk [] []) "o" "r" 1 "h" "ref" "b" "bref" none
        "t1").revisions.countP (fun r => matchesKey r "o" "r" 1 "h") = 1) :=
  ⟨by decide,
   saveRevision_idempotent (Db.mk [] []) "o" "r" 1 "h" "ref" "b" "bref" "ref2" "b2" "bref2"
     none (some "t0") "t1" "t2" (by decide)⟩

/-- Witness for C10: the freshly spawned invocation state is registered
and unsettled, and cleaning up a registry holding it empties the set. -/
theorem execGit_registry_invariant_witness :
    initExecState.settled = none ∧ (cleanupGitProcesses [initExecState]).2 = [] := by
  refine ⟨execGit_registry_invariant.2.2.1 [initExecState] ?_ initExecState (by simp), ?_⟩
  · intro p hp
    have hp2 : p = initExecState := by simpa using hp
    subst hp2
    exact ⟨rfl, none, 0, [], rfl⟩
  · exact execGit_registry_invariant.2.2.2 [initExecState]

end Argus
